import Mathlib

/-!
Verification development for the yt-insights services: a shallow embedding of
the analytics/trends computation pipeline, the cache gate and the snapshot
store.  The snapshot store (`StoreEngagement` and the `channel_engagement`
schema) is translated from the staged sources; the source files of the
Analytics Engine, Trends Engine, Cache Gate handlers and Fetcher are not
among the staged sources (only the spec describes them), so those components
are modelled from the spec, as marked on each definition.

Modelling conventions:
- `int64` counts and timestamps are modelled as `ℤ` (the spec materializes
  counts as non-negative, but nothing below needs that bound).
- Timestamps are modelled at day granularity as an epoch-day `ℤ`;
  "published after" is `<` on day numbers, and the UTC calendar-day
  comparison of the cache gate compares these day numbers directly.
- `float64` is modelled by `F64`: exact rationals for finite values plus the
  IEEE special values an unguarded division by zero would produce (`x/0` is
  NaN for `x = 0` and `±Inf` otherwise); rounding of finite results is
  abstracted to exact rational arithmetic.  The spec's guarded ratios never
  reach the special values, which is part of what is proved.
- The spec's stable-sort steps are embedded as `List.insertionSort`, which
  is a stable comparison sort: it returns a sorted permutation of its input
  in which elements with equal keys keep their original relative order (the
  stability is proved, not assumed, where a claim needs it).
- The weekly/monthly histograms are embedded as association lists in
  first-insert order, and only order-independent facts are proved about
  them.
-/

namespace YT

/-- Modelled from the spec: the canonical `Video` of the data model (§3) —
identifier, view/like/comment counts and publish timestamp; the
passthrough fields no claim touches (title, description, duration,
thumbnail URL) are omitted.  The file defining the video record is not
among the staged sources. -/
structure Video where
  vid : String
  views : ℤ
  likes : ℤ
  comments : ℤ
  uploadDate : ℤ
deriving DecidableEq

/-- Modelled from the spec: the engagement score used for top-N ranking
(§4.3) is the fixed linear weighting
`1.0*views + 2.0*likes + 3.0*comments` — likes weighted twice and comments
three times as heavily as raw views.  The file defining the score method is
not among the staged sources. -/
def Video.engagementScore (v : Video) : ℚ :=
  1 * (v.views : ℚ) + 2 * (v.likes : ℚ) + 3 * (v.comments : ℚ)

/-- Miniature float64 carrier: finite values are exact rationals, plus the
IEEE special values reachable through the divisions performed by the code. -/
inductive F64 where
  | fin (q : ℚ)
  | posInf
  | negInf
  | nan
deriving DecidableEq

/-- Division of two integer quantities as `float64`, with IEEE semantics at
a zero denominator: `0/0` is NaN, `a/0` is `±Inf` for nonzero `a`.  Finite
results are kept exact. -/
def fdivZ (a b : ℤ) : F64 :=
  if b = 0 then
    if a = 0 then F64.nan else if 0 < a then F64.posInf else F64.negInf
  else F64.fin ((a : ℚ) / (b : ℚ))

/-- Total of the `Views` fields, as accumulated by the analytics loops. -/
def sumViews (l : List Video) : ℤ := (l.map (·.views)).sum

/-- Total of the `Likes` fields. -/
def sumLikes (l : List Video) : ℤ := (l.map (·.likes)).sum

/-- Total of the `Comments` fields. -/
def sumComments (l : List Video) : ℤ := (l.map (·.comments)).sum

/-- The (non-strict) descending order on a sort key: the order in which the
spec's descending sorts arrange their results. -/
def keyRel {β : Type} [LinearOrder β] (key : Video → β) : Video → Video → Prop :=
  fun a b => key b ≤ key a

instance {β : Type} [LinearOrder β] (key : Video → β) : DecidableRel (keyRel key) :=
  fun a b => inferInstanceAs (Decidable (key b ≤ key a))

/-- Modelled from the spec: the stable descending sort by a key used by the
top-N selections and the fetch path (§4.2-§4.4).  `List.insertionSort` is a
stable comparison sort: a sorted permutation of the input in which elements
with equal keys keep their original relative order. -/
def sortDescBy {β : Type} [LinearOrder β] (key : Video → β) (l : List Video) : List Video :=
  l.insertionSort (keyRel key)

/-- Modelled from the spec: top-N selection (§4.3, and identically for the
trending videos of §4.4) — stable-sort all considered videos by descending
engagement score and take the first 5, or fewer if the set is smaller. -/
def top5ByScore (l : List Video) : List Video :=
  let s := sortDescBy Video.engagementScore l
  if 5 < s.length then s.take 5 else s

/-- Modelled from the spec: the derived `ChannelAnalytics` of the data model
(§3) — total video count considered, average views, like-to-view and
comment-to-view ratios, top-5 videos by engagement score, and the observed
time range (earliest and latest publish date among the considered videos);
channel passthrough metadata and the computation timestamp are omitted. -/
structure ChannelAnalytics where
  totalVideos : ℕ
  avgViews : F64
  ratioLikes : F64
  ratioComments : F64
  topEngaging : List Video
  startDate : ℤ
  endDate : ℤ
deriving DecidableEq

/-- Modelled from the spec: the analytics record computed for a non-empty
video list (§4.3) — `averageViews = totalViews / videoCount`,
`likeToViewRatio = totalLikes / totalViews` substituting 0 when
`totalViews = 0` (`commentToViewRatio` analogous), the stable top-5 by
engagement score, and the minimum/maximum publish date as the time
range. -/
def analyticsOf (videos : List Video) : ChannelAnalytics :=
  let tv := sumViews videos
  { totalVideos := videos.length
    avgViews := fdivZ tv videos.length
    ratioLikes := if tv = 0 then F64.fin 0 else fdivZ (sumLikes videos) tv
    ratioComments := if tv = 0 then F64.fin 0 else fdivZ (sumComments videos) tv
    topEngaging := top5ByScore videos
    startDate := ((videos.map (·.uploadDate)).min?).getD 0
    endDate := ((videos.map (·.uploadDate)).max?).getD 0 }

/-- Modelled from the spec: the Analytics Engine entry point
`computeAnalytics(channel, videos) -> ChannelAnalytics` (§4.3), whose source
file is not among the staged sources — it fails with `NoDataError` when
`videos` is empty (an empty-input failure, never a zero-valued result at
this top-level entry point) and otherwise returns the computed record. -/
def computeAnalytics (videos : List Video) : Except String ChannelAnalytics :=
  if videos.length = 0 then Except.error "NoDataError"
  else Except.ok (analyticsOf videos)

/-- Persisted snapshot as seen by the HTTP handlers: the last-update instant
(reduced to its UTC day) and the raw JSON payload
(`models.ChannelEngagement`, channel_engagement store). -/
structure Snapshot where
  updateDay : ℤ
  payload : String
deriving DecidableEq

/-- Whether a response was served from the cache or freshly recomputed. -/
inductive GateResponse (α : Type) where
  | fromCache (a : α)
  | fresh (a : α)
deriving DecidableEq

/-- Outcome of one handler invocation: the response plus how many upstream
fetch/recompute rounds and how many snapshot stores it performed. -/
structure GateTrace (α : Type) where
  response : GateResponse α
  fetches : ℕ
  stores : ℕ
deriving DecidableEq

/-- Modelled from the spec: the Cache Gate state machine (§4.5) shared by
the analytics and trends request handlers, whose source file is not among
the staged sources.  Look up the latest snapshot; if one exists, its UTC
update day equals today's UTC day, and its JSON payload decodes, serve the
decoded snapshot verbatim and return — otherwise (`NoSnapshot`,
`StaleOlderDay`, or a decode failure treated as cache-miss) fetch/recompute
fresh data and persist it.  `decode` stands for the JSON payload decoder,
`compute` for the fetch-and-compute call. -/
def handleEngagementRequest {α : Type} (decode : String → Option α) (compute : α)
    (snap : Option Snapshot) (today : ℤ) : GateTrace α :=
  match snap with
  | some s =>
    if s.updateDay = today then
      match decode s.payload with
      | some a => ⟨GateResponse.fromCache a, 0, 0⟩
      | none => ⟨GateResponse.fresh compute, 1, 1⟩
    else ⟨GateResponse.fresh compute, 1, 1⟩
  | none => ⟨GateResponse.fresh compute, 1, 1⟩

/-- One row of the `channel_engagement` table (both store variants create it
with `UNIQUE(channel_id, engagement_type)` and timestamp defaults). -/
structure EngRow where
  channelId : String
  engType : String
  createDay : ℤ
  updateDay : ℤ
  payload : String
deriving DecidableEq

/-- The WHERE clause shared by the existence check, the UPDATE and the
lookup: `channel_id = ? AND engagement_type = ?`. -/
def rowKeyMatches (cid ety : String) (r : EngRow) : Bool :=
  (r.channelId == cid) && (r.engType == ety)

/-- `(*Database).StoreEngagement` (both variants; sqlitecloud variant at
part_001 lines 258-304): `SELECT COUNT(*)` for the key; when positive,
`UPDATE ... SET json_response, update_date = CURRENT_TIMESTAMP WHERE key`;
otherwise `INSERT` a new row whose create/update dates default to now. -/
def storeEngagement (tbl : List EngRow) (cid ety payload : String) (today : ℤ) : List EngRow :=
  let count := (tbl.filter (rowKeyMatches cid ety)).length
  if 0 < count then
    tbl.map (fun r =>
      if rowKeyMatches cid ety r then
        { r with payload := payload, updateDay := today }
      else r)
  else
    tbl ++ [⟨cid, ety, today, today, payload⟩]

/-- The snapshot-store invariant: no two rows share the
(channel identifier, engagement kind) key. -/
def uniqueKeys (tbl : List EngRow) : Prop :=
  tbl.Pairwise (fun r s => ¬(r.channelId = s.channelId ∧ r.engType = s.engType))

/-- One entry of `PerformanceOverTime` (`models.VideoPerformancePoint`). -/
structure PerfPoint where
  uploadDate : ℤ
  views : ℤ
  likes : ℤ
  comments : ℤ
  likesToViews : F64
  commentsToViews : F64
deriving DecidableEq

/-- Modelled from the spec: one performance point per video (§4.4),
carrying the raw counts plus the `likesToViews` and `commentsToViews`
ratios, each 0 when the video's views are 0. -/
def perfPoint (v : Video) : PerfPoint :=
  { uploadDate := v.uploadDate
    views := v.views
    likes := v.likes
    comments := v.comments
    likesToViews := if 0 < v.views then fdivZ v.likes v.views else F64.fin 0
    commentsToViews := if 0 < v.views then fdivZ v.comments v.views else F64.fin 0 }

/-- One entry of `RollingAverages` (`models.RollingAverage`). -/
structure RollingAvg where
  uploadIndex : ℕ
  averageViews : F64
deriving DecidableEq

/-- Modelled from the spec: the backward-looking rolling-average variant
(§4.4) — for each index `i`, `start := max(0, i-W+1)` (here the truncated
subtraction `i+1-w`), the views are summed for `j` from `start` to `i`
inclusive, and the average divides by `i-start+1`.  The window size is a
parameter; the call path using this variant instantiates it at 10. -/
def rollingClient (w : ℕ) (views : List ℤ) : List RollingAvg :=
  (List.range views.length).map (fun i =>
    let start := i + 1 - w
    let sum := ((List.range' start (i + 1 - start)).map (fun j => views.getD j 0)).sum
    ⟨i, fdivZ sum (i + 1 - start)⟩)

/-- Modelled from the spec: the forward-looking rolling-average variant
(§4.4) — for each index `i`, the window spans `[i, min(n, i+W))`, and the
average divides by the window length, guarded against an empty window.  The
window size is a parameter; the call path using this variant instantiates
it at 7. -/
def rollingSDK (w : ℕ) (views : List ℤ) : List RollingAvg :=
  (List.range views.length).map (fun i =>
    let stop := min views.length (i + w)
    let window := (views.drop i).take (stop - i)
    ⟨i, if 0 < window.length then fdivZ window.sum window.length else F64.fin 0⟩)

/-- Modelled from the spec wording of the backward variant: the mean of
`views` over the inclusive index window `[max(0, i-W+1), i]`. -/
def specBackwardMean (w : ℕ) (views : List ℤ) (i : ℕ) : F64 :=
  let lo := i + 1 - w
  let window := (views.drop lo).take (i + 1 - lo)
  fdivZ window.sum window.length

/-- Modelled from the spec wording of the forward variant: the mean of
`views` over the half-open index window `[i, min(n, i+W))`. -/
def specForwardMean (w : ℕ) (views : List ℤ) (i : ℕ) : F64 :=
  let window := (views.drop i).take w
  fdivZ window.sum window.length

/-- `weekly[key]++` / `monthly[key]++` on an association list: increment the
entry when present, create it at count 1 otherwise. -/
def bumpCount {K : Type} [DecidableEq K] (k : K) : List (K × ℕ) → List (K × ℕ)
  | [] => [(k, 1)]
  | p :: rest => if p.1 = k then (p.1, p.2 + 1) :: rest else p :: bumpCount k rest

/-- `engageWeekly[key] = append(engageWeekly[key], v)` on an association
list: append to the entry when present, create a singleton otherwise. -/
def addMember {K : Type} [DecidableEq K] (k : K) (v : Video) :
    List (K × List Video) → List (K × List Video)
  | [] => [(k, [v])]
  | p :: rest => if p.1 = k then (p.1, p.2 ++ [v]) :: rest else p :: addMember k v rest

/-- Modelled from the spec: the upload-frequency histogram (§4.4) — bucket
the videos by their key in one pass and count per bucket.  The association
list fixes first-insert order for the emitted buckets, and only
order-independent facts are proved about them. -/
def uploadFrequency {K : Type} [DecidableEq K] (key : Video → K) (videos : List Video) :
    List (K × ℕ) :=
  videos.foldl (fun acc v => bumpCount (key v) acc) []

/-- The per-bucket video lists (weekly/monthly engagement buckets) built in
the same pass as the counts. -/
def bucketMembers {K : Type} [DecidableEq K] (key : Video → K) (videos : List Video) :
    List (K × List Video) :=
  videos.foldl (fun acc v => addMember (key v) v acc) []

/-- One entry of the engagement-trend slices (`models.EngagementTrend`). -/
structure TrendEntry (K : Type) where
  period : K
  avgViews : F64
  avgLikes : F64
  avgComments : F64
deriving DecidableEq

/-- Modelled from the spec: the engagement trend per bucket (§4.4) — the
mean views/likes/comments across the videos in that bucket. -/
def engagementTrendsBy {K : Type} [DecidableEq K] (key : Video → K) (videos : List Video) :
    List (TrendEntry K) :=
  (bucketMembers key videos).map (fun p =>
    ⟨p.1, fdivZ (sumViews p.2) p.2.length, fdivZ (sumLikes p.2) p.2.length,
      fdivZ (sumComments p.2) p.2.length⟩)

/-- First bucket found for a key (the map read `engageWeekly[key]`). -/
def lookupBucket {K : Type} [DecidableEq K] (k : K) (bs : List (K × List Video)) :
    List Video :=
  match bs.find? (fun p => p.1 == k) with
  | some p => p.2
  | none => []

/-- Keys of the bucket list, in first-insert order. -/
def bucketKeys {K : Type} (bs : List (K × List Video)) : List K := bs.map (·.1)

/-- Whether a bucket for `k` already exists. -/
def hasKey {K : Type} [DecidableEq K] (k : K) (bs : List (K × List Video)) : Bool :=
  bs.any (fun p => p.1 == k)

/-- Proleptic-Gregorian conversion of an epoch-day number to
(year, month, day) in UTC (standard civil-from-days arithmetic). -/
def civilFromDays (z0 : ℤ) : ℤ × ℤ × ℤ :=
  let z := z0 + 719468
  let era := Int.fdiv z 146097
  let doe := z - era * 146097
  let yoe := (doe - doe / 1460 + doe / 36524 - doe / 146096) / 365
  let y := yoe + era * 400
  let doy := doe - (365 * yoe + yoe / 4 - yoe / 100)
  let mp := (5 * doy + 2) / 153
  let d := doy - (153 * mp + 2) / 5 + 1
  let m := mp + (if mp < 10 then 3 else -9)
  (y + (if m ≤ 2 then 1 else 0), m, d)

/-- Inverse conversion: (year, month, day) to the epoch-day number. -/
def daysFromCivil (y m d : ℤ) : ℤ :=
  let yy := y - (if m ≤ 2 then 1 else 0)
  let era := Int.fdiv yy 400
  let yoe := yy - era * 400
  let mp := Int.emod (m + 9) 12
  let doy := (153 * mp + 2) / 5 + d - 1
  let doe := yoe * 365 + yoe / 4 - yoe / 100 + doy
  era * 146097 + doe - 719468

/-- Weekday of an epoch day, numbered with Sunday = 0; day 0 (1970-01-01)
was a Thursday. -/
def weekdayOfDay (day : ℤ) : ℤ := Int.emod (day + 4) 7

/-- Modelled from the spec: the ISO-week bucket key `<year>-W<week>` of
§4.4, by the ISO-8601 rule that the first calendar week of a year is the
week containing its first Thursday (weeks run Monday through Sunday): move
to the Thursday of the day's week, then the ISO year is that Thursday's
year and the week is its zero-based day-of-year divided by 7, plus one. -/
def isoWeekKey (day : ℤ) : ℤ × ℤ :=
  let d0 := 4 - weekdayOfDay day
  let d := if d0 = 4 then -3 else d0
  let thursday := day + d
  let c := civilFromDays thursday
  let yday := thursday - daysFromCivil c.1 1 1
  (c.1, yday / 7 + 1)

/-- Modelled from the spec: the calendar-month bucket key `<year>-<month>`
of §4.4: (year, month). -/
def monthKey (day : ℤ) : ℤ × ℤ :=
  let c := civilFromDays day
  (c.1, c.2.1)

/-- ISO-week bucket key of a video's publish date. -/
def weekKeyV (v : Video) : ℤ × ℤ := isoWeekKey v.uploadDate

/-- Calendar-month bucket key of a video's publish date. -/
def monthKeyV (v : Video) : ℤ × ℤ := monthKey v.uploadDate

/-- Modelled from the spec: the derived `ChannelTrends` of the data model
(§3) — top-5 trending videos, per-video performance points, rolling view
averages indexed by upload order, weekly and monthly upload-frequency
counts and engagement averages; channel passthrough metadata and the
computation timestamp are omitted. -/
structure TrendsClient where
  trendingVideos : List Video
  performance : List PerfPoint
  rollingAverages : List RollingAvg
  freqWeekly : List ((ℤ × ℤ) × ℕ)
  freqMonthly : List ((ℤ × ℤ) × ℕ)
  engWeekly : List (TrendEntry (ℤ × ℤ))
  engMonthly : List (TrendEntry (ℤ × ℤ))
deriving DecidableEq

/-- Modelled from the spec: the trends computed for a non-empty video list
(§4.4) — performance points in input order, rolling averages with the
backward window instantiated at 10, ISO-week and calendar-month histograms
and engagement trends, and the top five by engagement score (identical
selection to the Analytics Engine). -/
def trendsClientCore (videos : List Video) : TrendsClient :=
  { trendingVideos := top5ByScore videos
    performance := videos.map perfPoint
    rollingAverages := rollingClient 10 (videos.map (·.views))
    freqWeekly := uploadFrequency weekKeyV videos
    freqMonthly := uploadFrequency monthKeyV videos
    engWeekly := engagementTrendsBy weekKeyV videos
    engMonthly := engagementTrendsBy monthKeyV videos }

/-- The three possible outcomes of the trends computation: an error, an
empty/absent result, or a computed result. -/
inductive TrendsOutcome (α : Type) where
  | failure (msg : String)
  | absent
  | result (t : α)
deriving DecidableEq

/-- Modelled from the spec: the Trends Engine entry point
`computeTrends(channel, videos) -> ChannelTrends` (§4.4), whose source file
is not among the staged sources — it returns an empty/absent result (not an
error) when `videos` is empty, and the computed trends otherwise. -/
def getChannelTrendsClient (videos : List Video) : TrendsOutcome TrendsClient :=
  if videos.length = 0 then TrendsOutcome.absent
  else TrendsOutcome.result (trendsClientCore videos)

/-- Modelled from the spec: the `VideoFilter` sort key (§3) — by views, by
likes, or by recency (the handlers default an unrecognized query value to
recency before the fetch). -/
inductive SortOption where
  | byViews
  | byLikes
  | byRecency
deriving DecidableEq

/-- The integer sort key selected by each option; recency compares publish
dates, the later timestamp being greater. -/
def sortKeyOf : SortOption → Video → ℤ
  | SortOption.byViews => (·.views)
  | SortOption.byLikes => (·.likes)
  | SortOption.byRecency => (·.uploadDate)

/-- Modelled from the spec: `VideoFilter` (§3) — sort key, maximum result
count, and minimum view/like thresholds. -/
structure VideoFilter where
  sortBy : SortOption
  maxVideos : ℕ
  minViews : ℤ
  minLikes : ℤ
deriving DecidableEq

/-- Modelled from the spec: the post-fetch retention predicate (§3) — a
video is retained only if `views ≥ minViews` and `likes ≥ minLikes`. -/
def passesFilter (f : VideoFilter) (v : Video) : Bool :=
  decide (f.minViews ≤ v.views) && decide (f.minLikes ≤ v.likes)

/-- The sort on the chosen key shared by both fetch paths (views
descending, likes descending, or publish date descending for recency,
§4.2). -/
def sortVideos (o : SortOption) (l : List Video) : List Video :=
  sortDescBy (sortKeyOf o) l

/-- Modelled from the spec: the direct-client fetch path following the §4.2
algorithm, with the upstream modelled as the channel's full upload list in
playlist order — pagination collects video identifiers only "until the
requested maximum video count is reached", so the identifier list is capped
at `MaxVideos` BEFORE details are fetched; the filter predicate is then
applied per video as details arrive and the survivors are sorted, with no
further truncation in this call path. -/
def getChannelVideosClient (uploads : List Video) (f : VideoFilter) : List Video :=
  let capped := uploads.take f.maxVideos
  let filtered := capped.filter (passesFilter f)
  sortVideos f.sortBy filtered

/-- Modelled from the spec: the handler fetch path that retrieves the
entire upload list, applies the filter predicate, sorts the survivors, and
truncates the sorted list to `MaxVideos` (§4.2: "truncate to
`filter.MaxVideos`" as the final step). -/
def getChannelVideosSDK (uploads : List Video) (f : VideoFilter) : List Video :=
  let filtered := uploads.filter (passesFilter f)
  let sorted := sortVideos f.sortBy filtered
  if f.maxVideos < sorted.length then sorted.take f.maxVideos else sorted

/-! ## Helper lemmas -/

theorem sortDescBy_perm {β : Type} [LinearOrder β] (key : Video → β) (l : List Video) :
    (sortDescBy key l).Perm l :=
  List.perm_insertionSort _ l

theorem sortDescBy_sorted {β : Type} [LinearOrder β] (key : Video → β) (l : List Video) :
    (sortDescBy key l).Sorted (keyRel key) := by
  haveI : IsTotal Video (keyRel key) := ⟨fun a b => le_total (key b) (key a)⟩
  haveI : IsTrans Video (keyRel key) := ⟨fun a b c h1 h2 => le_trans h2 h1⟩
  exact List.sorted_insertionSort _ l

theorem takeIfLong_eq_take {α : Type} (n : ℕ) (l : List α) :
    (if n < l.length then l.take n else l) = l.take n := by
  by_cases h : n < l.length
  · simp [h]
  · simp [h, List.take_of_length_le (Nat.le_of_not_lt h)]

/-! ## Claim theorems -/

theorem rowKeyMatches_iff (cid ety : String) (r : EngRow) :
    rowKeyMatches cid ety r = true ↔ (r.channelId = cid ∧ r.engType = ety) := by
  simp [rowKeyMatches]

/-- C5: `StoreEngagement` preserves the at-most-one-row-per-key invariant:
from any store state with unique (channel, kind) keys, it updates the
matching row in place when one exists (same number of rows) and appends a
single fresh row otherwise, never duplicating a key (confirmed; both store
variants share this check-then-update-or-insert structure). -/
theorem c5_store_upsert_unique (tbl : List EngRow) (cid ety payload : String) (today : ℤ)
    (h : uniqueKeys tbl) :
    uniqueKeys (storeEngagement tbl cid ety payload today) ∧
    (0 < (tbl.filter (rowKeyMatches cid ety)).length →
      (storeEngagement tbl cid ety payload today).length = tbl.length) ∧
    ((tbl.filter (rowKeyMatches cid ety)).length = 0 →
      storeEngagement tbl cid ety payload today = tbl ++ [⟨cid, ety, today, today, payload⟩]) := by
  unfold storeEngagement uniqueKeys
  by_cases hc : 0 < (tbl.filter (rowKeyMatches cid ety)).length
  · rw [if_pos hc]
    refine ⟨?_, fun _ => List.length_map _ _, fun hz => absurd hz (by omega)⟩
    refine List.Pairwise.map _ ?_ h
    intro a b hab
    by_cases ha : rowKeyMatches cid ety a = true <;>
      by_cases hb : rowKeyMatches cid ety b = true <;>
      simp only [ha, hb, if_true, if_false, Bool.false_eq_true, ite_true, ite_false] <;>
      exact hab
  · rw [if_neg hc]
    have hz : (tbl.filter (rowKeyMatches cid ety)).length = 0 := by omega
    have hnil : tbl.filter (rowKeyMatches cid ety) = [] := List.length_eq_zero.1 hz
    have hnomatch : ∀ a ∈ tbl, ¬(a.channelId = cid ∧ a.engType = ety) := by
      intro a ha
      have := (List.filter_eq_nil_iff.1 hnil) a ha
      rw [rowKeyMatches_iff] at this
      exact this
    refine ⟨?_, fun hp => absurd hp hc, fun _ => rfl⟩
    rw [List.pairwise_append]
    refine ⟨h, List.pairwise_singleton _ _, ?_⟩
    intro a ha b hb
    have hb1 : b = (⟨cid, ety, today, today, payload⟩ : EngRow) := by simpa using hb
    subst hb1
    exact hnomatch a ha

/-- C5 witness: storing a trends snapshot into a table that already holds an
analytics row for the same channel keeps the keys unique. -/
theorem c5_store_upsert_unique_witness :
    uniqueKeys (storeEngagement [⟨"c1", "analytics", 0, 0, "a"⟩] "c1" "trends" "b" 3) :=
  (c5_store_upsert_unique [⟨"c1", "analytics", 0, 0, "a"⟩] "c1" "trends" "b" 3
    (List.pairwise_singleton _ _)).1

theorem sortDescBy_stable {β : Type} [LinearOrder β] (key : Video → β) (l : List Video)
    (q : β) :
    (sortDescBy key l).filter (fun v => decide (key v = q)) =
      l.filter (fun v => decide (key v = q)) := by
  have hperm := sortDescBy_perm key l
  have hsub : (l.filter (fun v => decide (key v = q))).Sublist l := List.filter_sublist l
  have hpair : (l.filter (fun v => decide (key v = q))).Pairwise (keyRel key) := by
    apply List.pairwise_of_forall_mem_list
    intro a ha b hb
    have ha2 : key a = q := of_decide_eq_true (List.mem_filter.1 ha).2
    have hb2 : key b = q := of_decide_eq_true (List.mem_filter.1 hb).2
    exact le_of_eq (hb2.trans ha2.symm)
  have hcs : (l.filter (fun v => decide (key v = q))).Sublist (sortDescBy key l) :=
    List.sublist_insertionSort hpair hsub
  have hfe : (l.filter (fun v => decide (key v = q))).filter
      (fun v => decide (key v = q)) = l.filter (fun v => decide (key v = q)) := by
    rw [List.filter_eq_self]
    exact fun a ha => (List.mem_filter.1 ha).2
  have hsf : (l.filter (fun v => decide (key v = q))).Sublist
      ((sortDescBy key l).filter (fun v => decide (key v = q))) := by
    have := List.Sublist.filter (fun v => decide (key v = q)) hcs
    rwa [hfe] at this
  have hlen : (l.filter (fun v => decide (key v = q))).length =
      ((sortDescBy key l).filter (fun v => decide (key v = q))).length :=
    (List.Perm.filter _ hperm).length_eq.symm
  exact (hsf.eq_of_length hlen).symm

theorem range'_getD_sum (l : List ℤ) (k : ℕ) :
    ∀ s : ℕ, s + k ≤ l.length →
      ((List.range' s k).map (fun j => l.getD j 0)).sum = ((l.drop s).take k).sum := by
  induction k with
  | zero => intro s _; simp
  | succ k ih =>
    intro s h
    have hs : s < l.length := by omega
    rw [List.range'_succ, List.map_cons, List.sum_cons, List.drop_eq_getElem_cons hs,
      List.take_succ_cons, List.sum_cons, List.getD_eq_getElem l 0 hs, ih (s + 1) (by omega)]

theorem take_drop_window_length (l : List ℤ) (s k : ℕ) (h : s + k ≤ l.length) :
    ((l.drop s).take k).length = k := by
  rw [List.length_take, List.length_drop]
  omega

theorem rollingClient_entry (w : ℕ) (views : List ℤ) (i : ℕ) (h : i < views.length) :
    (rollingClient w views)[i]? = some ⟨i, specBackwardMean w views i⟩ := by
  unfold rollingClient specBackwardMean
  rw [List.getElem?_map, List.getElem?_range h, Option.map_some']
  dsimp only
  have hst : (i + 1 - w) + (i + 1 - (i + 1 - w)) ≤ views.length := by omega
  rw [range'_getD_sum views (i + 1 - (i + 1 - w)) (i + 1 - w) hst,
    take_drop_window_length views (i + 1 - w) (i + 1 - (i + 1 - w)) hst]
  have hd : ((i : ℤ) + 1 - ((i + 1 - w : ℕ) : ℤ)) = ((i + 1 - (i + 1 - w) : ℕ) : ℤ) := by
    omega
  rw [hd]

theorem take_min_length (l : List ℤ) (w : ℕ) : l.take (min l.length w) = l.take w := by
  rcases le_total l.length w with hc | hc
  · rw [min_eq_left hc, List.take_of_length_le hc, List.take_length]
  · rw [min_eq_right hc]

theorem rollingSDK_entry (w : ℕ) (views : List ℤ) (i : ℕ) (h : i < views.length)
    (hw : 0 < w) :
    (rollingSDK w views)[i]? = some ⟨i, specForwardMean w views i⟩ := by
  unfold rollingSDK specForwardMean
  rw [List.getElem?_map, List.getElem?_range h, Option.map_some']
  dsimp only
  have hwin : min views.length (i + w) - i = min (views.length - i) w := by omega
  have hdlen : (views.drop i).length = views.length - i := List.length_drop i views
  have heq : (views.drop i).take (min views.length (i + w) - i) = (views.drop i).take w := by
    rw [hwin, ← hdlen, take_min_length]
  rw [heq]
  have hpos : 0 < ((views.drop i).take w).length := by
    rw [List.length_take, List.length_drop]
    omega
  rw [if_pos hpos]

theorem lookupBucket_nil {K : Type} [DecidableEq K] (k : K) :
    lookupBucket k ([] : List (K × List Video)) = [] := rfl

theorem lookupBucket_cons {K : Type} [DecidableEq K] (k : K) (p : K × List Video)
    (rest : List (K × List Video)) :
    lookupBucket k (p :: rest) = if p.1 = k then p.2 else lookupBucket k rest := by
  by_cases h : p.1 = k <;> simp [lookupBucket, List.find?_cons, h]

theorem lookupBucket_addMember {K : Type} [DecidableEq K] (k k2 : K) (v : Video)
    (bs : List (K × List Video)) :
    lookupBucket k (addMember k2 v bs) =
      if k2 = k then lookupBucket k bs ++ [v] else lookupBucket k bs := by
  induction bs with
  | nil =>
    by_cases hk : k2 = k <;> simp [addMember, lookupBucket_cons, lookupBucket_nil, hk]
  | cons p rest ih =>
    simp only [addMember]
    by_cases hp : p.1 = k2
    · rw [if_pos hp]
      by_cases hk : k2 = k
      · have hpk : p.1 = k := hp.trans hk
        rw [if_pos hk, lookupBucket_cons, lookupBucket_cons, if_pos hpk, if_pos hpk]
      · have hpk : ¬p.1 = k := fun he => hk (hp.symm.trans he)
        rw [if_neg hk, lookupBucket_cons, lookupBucket_cons, if_neg hpk, if_neg hpk]
    · rw [if_neg hp]
      by_cases hpk : p.1 = k
      · have hk : ¬k2 = k := fun he => hp (hpk.trans he.symm)
        rw [lookupBucket_cons, if_pos hpk, if_neg hk, lookupBucket_cons, if_pos hpk]
      · rw [lookupBucket_cons, if_neg hpk, ih, lookupBucket_cons, if_neg hpk]

theorem hasKey_iff {K : Type} [DecidableEq K] (k : K) (bs : List (K × List Video)) :
    hasKey k bs = true ↔ k ∈ bucketKeys bs := by
  simp [hasKey, bucketKeys, List.any_eq_true, List.mem_map]

theorem bucketKeys_addMember {K : Type} [DecidableEq K] (k : K) (v : Video)
    (bs : List (K × List Video)) :
    bucketKeys (addMember k v bs) =
      if hasKey k bs then bucketKeys bs else bucketKeys bs ++ [k] := by
  induction bs with
  | nil => simp [addMember, bucketKeys, hasKey]
  | cons p rest ih =>
    simp only [addMember, hasKey, List.any_cons, bucketKeys, List.map_cons]
    by_cases hp : p.1 = k
    · simp [hp]
    · have hb : (p.1 == k) = false := beq_eq_false_iff_ne.2 hp
      rw [if_neg hp, hb, Bool.false_or, List.map_cons]
      have ih2 : (addMember k v rest).map (·.1) =
          if hasKey k rest then rest.map (·.1) else rest.map (·.1) ++ [k] := ih
      rw [ih2]
      by_cases hr : hasKey k rest
      · rw [if_pos hr, if_pos (by simpa [hasKey] using hr)]
      · rw [if_neg hr, if_neg (by simpa [hasKey] using hr), List.cons_append]

theorem bucketKeys_nodup_addMember {K : Type} [DecidableEq K] (k : K) (v : Video)
    (bs : List (K × List Video)) (h : (bucketKeys bs).Nodup) :
    (bucketKeys (addMember k v bs)).Nodup := by
  rw [bucketKeys_addMember]
  by_cases hh : hasKey k bs
  · rw [if_pos hh]; exact h
  · rw [if_neg hh, List.nodup_append]
    refine ⟨h, List.nodup_singleton k, ?_⟩
    intro a ha hb
    have hak : a = k := by simpa using hb
    subst hak
    exact hh ((hasKey_iff a bs).2 ha)

theorem lookupBucket_bucketFold {K : Type} [DecidableEq K] (key : Video → K) (k : K) :
    ∀ (vs : List Video) (bs : List (K × List Video)),
      lookupBucket k (vs.foldl (fun a v => addMember (key v) v a) bs) =
        lookupBucket k bs ++ vs.filter (fun v => key v == k) := by
  intro vs
  induction vs with
  | nil => intro bs; simp
  | cons v vs ih =>
    intro bs
    rw [List.foldl_cons, ih, lookupBucket_addMember]
    by_cases hv : key v = k
    · rw [if_pos hv, List.filter_cons_of_pos (by simpa using hv), List.append_assoc,
        List.singleton_append]
    · rw [if_neg hv, List.filter_cons_of_neg (by simpa using hv)]

theorem hasKey_bucketFold {K : Type} [DecidableEq K] (key : Video → K) (k : K) :
    ∀ (vs : List Video) (bs : List (K × List Video)),
      hasKey k (vs.foldl (fun a v => addMember (key v) v a) bs) =
        (hasKey k bs || vs.any (fun v => key v == k)) := by
  intro vs
  induction vs with
  | nil => intro bs; simp
  | cons v vs ih =>
    intro bs
    rw [List.foldl_cons, ih, List.any_cons]
    by_cases hv : key v = k
    · have hb : (key v == k) = true := by simpa using hv
      rw [hb, Bool.true_or, Bool.or_true]
      have : hasKey k (addMember (key v) v bs) = true := by
        rw [hasKey_iff, bucketKeys_addMember]
        by_cases hh : hasKey (key v) bs
        · rw [if_pos hh]
          exact (hasKey_iff k bs).1 (hv ▸ hh)
        · rw [if_neg hh]
          exact List.mem_append_right _ (by simp [hv])
      rw [this, Bool.true_or]
    · have hb : (key v == k) = false := beq_eq_false_iff_ne.2 hv
      rw [hb, Bool.false_or]
      congr 1
      rw [Bool.eq_iff_iff, hasKey_iff, hasKey_iff, bucketKeys_addMember]
      by_cases hh : hasKey (key v) bs
      · rw [if_pos hh]
      · rw [if_neg hh]
        constructor
        · intro hm
          rcases List.mem_append.1 hm with hm | hm
          · exact hm
          · have hk2 : k = key v := by simpa using hm
            exact absurd hk2.symm hv
        · exact fun hm => List.mem_append_left _ hm

theorem bucketKeys_nodup_bucketFold {K : Type} [DecidableEq K] (key : Video → K) :
    ∀ (vs : List Video) (bs : List (K × List Video)),
      (bucketKeys bs).Nodup →
        (bucketKeys (vs.foldl (fun a v => addMember (key v) v a) bs)).Nodup := by
  intro vs
  induction vs with
  | nil => intro bs h; exact h
  | cons v vs ih =>
    intro bs h
    rw [List.foldl_cons]
    exact ih _ (bucketKeys_nodup_addMember (key v) v bs h)

theorem lookupBucket_of_mem {K : Type} [DecidableEq K] (bs : List (K × List Video))
    (h : (bucketKeys bs).Nodup) (p : K × List Video) (hp : p ∈ bs) :
    lookupBucket p.1 bs = p.2 := by
  induction bs with
  | nil => cases hp
  | cons q rest ih =>
    simp only [bucketKeys, List.map_cons, List.nodup_cons] at h
    rw [lookupBucket_cons]
    rcases List.mem_cons.1 hp with he | hp2
    · rw [he, if_pos rfl]
    · have hq : ¬q.1 = p.1 := by
        intro heq
        exact h.1 (heq ▸ List.mem_map_of_mem (·.1) hp2)
      rw [if_neg hq]
      exact ih h.2 hp2

theorem bucketMembers_mem_eq_filter {K : Type} [DecidableEq K] (key : Video → K)
    (vs : List Video) (p : K × List Video) (hp : p ∈ bucketMembers key vs) :
    p.2 = vs.filter (fun v => key v == p.1) := by
  have hnodup : (bucketKeys (bucketMembers key vs)).Nodup :=
    bucketKeys_nodup_bucketFold key vs [] (by simp [bucketKeys])
  have hlk := lookupBucket_of_mem _ hnodup p hp
  rw [← hlk]
  rw [bucketMembers] at hp ⊢
  rw [lookupBucket_bucketFold key p.1 vs [], lookupBucket_nil, List.nil_append]

theorem bucketMembers_mem_ne_nil {K : Type} [DecidableEq K] (key : Video → K)
    (vs : List Video) (p : K × List Video) (hp : p ∈ bucketMembers key vs) :
    p.2 ≠ [] := by
  have hkey : p.1 ∈ bucketKeys (bucketMembers key vs) := List.mem_map_of_mem (·.1) hp
  have hhk : hasKey p.1 (bucketMembers key vs) = true := (hasKey_iff _ _).2 hkey
  rw [bucketMembers, hasKey_bucketFold key p.1 vs []] at hhk
  simp only [hasKey, List.any_nil, Bool.false_or] at hhk
  obtain ⟨v, hv, hkv⟩ := List.any_eq_true.1 hhk
  rw [bucketMembers_mem_eq_filter key vs p hp]
  intro hnil
  exact (List.filter_eq_nil_iff.1 hnil) v hv hkv

theorem bumpCount_sum {K : Type} [DecidableEq K] (k : K) (cs : List (K × ℕ)) :
    ((bumpCount k cs).map (·.2)).sum = ((cs.map (·.2)).sum) + 1 := by
  induction cs with
  | nil => simp [bumpCount]
  | cons p rest ih =>
    by_cases hp : p.1 = k <;> simp [bumpCount, hp, ih] <;> omega

theorem bumpCount_fold_sum {K : Type} [DecidableEq K] (key : Video → K) :
    ∀ (vs : List Video) (cs : List (K × ℕ)),
      (((vs.foldl (fun a v => bumpCount (key v) a) cs)).map (·.2)).sum =
        ((cs.map (·.2)).sum) + vs.length := by
  intro vs
  induction vs with
  | nil => intro cs; simp
  | cons v vs ih =>
    intro cs
    rw [List.foldl_cons, ih, bumpCount_sum, List.length_cons]
    omega

end YT
